import Mathlib

/-!
Verification of the drawpia repository (src/drawpia/manager.py and
src/drawpia/extractor.py): a shallow embedding of the entry/group data
model, the feasibility validator, the extractor's line parsing and the
three-phase randomized draw engine, together with theorems settling the
frozen claims about them.

Modelling conventions:
* Python strings are Lean `String`s; `None`-able strings are `Option String`,
  and Python truthiness of such a value (`if level:`) is `truthy` below
  (false exactly for `None` and the empty string).
* Python `random.choice` is modelled by an explicit stream of numbers
  (`rand : List Nat`): each choice consumes one number `r` and picks index
  `r % len` of the current candidate list.  Quantifying over `rand` ranges
  over every sequence of random choices the interpreter could make.
* Mutation is modelled by explicit state passing; a Python `raise` is an
  `Except.error` carrying the exception kind (always `ValueError` in this
  code) and its message.
* Entry equality used by the draw engine (`in`, `set` difference) is
  modelled structurally (equality of the four fields).  CPython actually
  compares `hash` values (`Entry.__eq__`); on collision-free data - in
  particular any data whose four-field tuples are distinct and hash
  distinctly, as the code assumes - the two coincide.  The hash-based
  equality itself is embedded separately (`pyEntryEq`) for the claim about
  `Entry.__eq__`.
* The unbounded `while` loop of phase 3 is embedded with an explicit fuel
  parameter counting full sweeps over the group pool; running out of fuel
  returns the intermediate state marked `done := false`.  A run of the
  Python loop that terminates is `done := true` for every sufficiently
  large fuel; a livelock is `done := false` for every fuel.
-/

namespace Drawpia

/-- One participant, as built by `extractor.py` (`Entry.__init__`). -/
structure Entry where
  name : String
  row : Nat
  restricted_level : Option String
  optional_level : Option String
deriving DecidableEq, Repr

/-- Python truthiness of an optional string: `None` and `""` are falsy. -/
def truthy : Option String → Bool
  | none => false
  | some s => !(s == "")

/-- Python exception: its class (always `ValueError` in this repository)
and its message. -/
structure PyError where
  kind : String
  msg : String
deriving DecidableEq, Repr

/-- `Entry.__str__` from extractor.py. -/
def entryStr (e : Entry) : String :=
  match e.restricted_level, e.optional_level with
  | some r, some o =>
    "[" ++ toString e.row ++ "]-[" ++ e.name ++ "]-[" ++ r ++ "]-[" ++ o ++ "]"
  | some r, none => "[" ++ toString e.row ++ "]-[" ++ e.name ++ "]-[" ++ r ++ "]"
  | none, some o => "[" ++ toString e.row ++ "]-[" ++ e.name ++ "]-[" ++ o ++ "]"
  | none, none => "[" ++ toString e.row ++ "]-[" ++ e.name ++ "]"

/-- A group (manager.py `Group`): name, fixed size, member list in
insertion order.  The draw only ever constructs groups whose size is the
validated (positive) group size, so `size` is a `Nat`. -/
structure Group where
  name : String
  size : Nat
  entries : List Entry
deriving DecidableEq, Repr

/-- `Group.is_full`: `len(self._entries) >= self._size`. -/
def Group.is_full (g : Group) : Bool :=
  g.size ≤ g.entries.length

/-- `Group.has_restricted`: `False` for a falsy level, otherwise whether
some member carries exactly that restricted level. -/
def Group.has_restricted (g : Group) (lvl : Option String) : Bool :=
  if truthy lvl then g.entries.any (fun it => it.restricted_level == lvl) else false

/-- `Group.has_optional`: `False` for a falsy level, otherwise whether
some member carries exactly that optional level. -/
def Group.has_optional (g : Group) (lvl : Option String) : Bool :=
  if truthy lvl then g.entries.any (fun it => it.optional_level == lvl) else false

/-- `Group.add`: raises if the group is full, raises if the entry is
already a member, otherwise appends the entry. -/
def Group.add (g : Group) (e : Entry) : Except PyError Group :=
  if g.is_full then
    .error ⟨"ValueError",
      "Group [" ++ g.name ++ "] is full with [" ++ toString g.size ++ "] entries."⟩
  else if g.entries.contains e then
    .error ⟨"ValueError",
      "Entry " ++ entryStr e ++ " is already added to group [" ++ g.name ++ "]"⟩
  else
    .ok ⟨g.name, g.size, g.entries ++ [e]⟩

/-- A caller that catches the exception of `Group.add` and keeps the old
group: the state visible after an `add` call whether it raised or not. -/
def addAttempt (g : Group) (e : Entry) : Group :=
  match g.add e with
  | .ok g' => g'
  | .error _ => g

/-- An arbitrary sequence of `add` calls, failures swallowed. -/
def applyAdds (g : Group) (es : List Entry) : Group :=
  es.foldl addAttempt g

/-- Python `str.isdigit` (ASCII digits): nonempty and all digits. -/
def pyIsDigit (s : String) : Bool :=
  !s.isEmpty && s.data.all (fun c => c.isDigit)

/-- Python `int(...)` on a digit string. -/
def pyInt (s : String) : Nat :=
  s.data.foldl (fun n c => n * 10 + (c.toNat - 48)) 0

/-- `Manager._validate`: the feasibility validator.  Its inputs are the
total entry count, the restricted level population counts (in dictionary
insertion order) and the raw group-size string; it yields
`(group_size, total_groups)` or raises. -/
def validate (count : Nat) (restricted_count : List (String × Nat))
    (group_size : String) : Except PyError (Nat × Nat) :=
  if (group_size == "") || !(pyIsDigit group_size) then
    .error ⟨"ValueError", "Group size is invalid."⟩
  else
    let n := pyInt group_size
    if n = 0 then
      .error ⟨"ValueError", "Group size must be a positive integer."⟩
    else if count < n then
      .error ⟨"ValueError",
        "Group size can not be bigger than entries count which is [" ++
          toString count ++ "]"⟩
    else if count % n ≠ 0 then
      .error ⟨"ValueError",
        "Entries count is [" ++ toString count ++
          "] which is not dividable by group size [" ++ toString n ++ "]."⟩
    else
      let total_groups := count / n
      match restricted_count.find? (fun p => total_groups < p.2) with
      | some p =>
        .error ⟨"ValueError",
          "There are [" ++ toString p.2 ++ "] entries with restricted level [" ++
            p.1 ++ "], but there would be only [" ++ toString total_groups ++
            "] groups in total. entries with the same restricted level can not " ++
            "be put in the same group."⟩
      | none => .ok (n, total_groups)

/-- The conflict test of `Manager._select`: the chosen candidate is
rejected when the restricted check is enabled and the group already holds
its restricted level, or the optional check is enabled and the group
already holds its optional level. -/
def selectConflict (g : Group) (e : Entry) (ir io : Bool) : Bool :=
  (ir && g.has_restricted e.restricted_level) || (io && g.has_optional e.optional_level)

/-- Recursion core of `Manager._select`, structurally recursive on an
explicit bound.  The bound is initialised to the candidate count
(`select` below); each conflicting redraw removes one candidate, so the
bound never runs out on the fuel-zero/nonempty branch. -/
def selectGo : Nat → List Nat → List Entry → Group → List Entry → Bool → Bool →
    Except PyError (Option Entry × Group × List Entry × List Nat)
  | _, rand, [], g, picked, _, _ => .ok (none, g, picked, rand)
  | 0, rand, _ :: _, g, picked, _, _ => .ok (none, g, picked, rand)
  | fuel + 1, rand, e0 :: es, g, picked, ir, io =>
    let selected := (e0 :: es).getD (rand.headD 0 % (e0 :: es).length) e0
    if selectConflict g selected ir io then
      selectGo fuel rand.tail ((e0 :: es).erase selected) g picked ir io
    else
      match g.add selected with
      | .error err => .error err
      | .ok g' => .ok (some selected, g', picked ++ [selected], rand.tail)

/-- `Manager._select`: pick a random candidate, redraw on conflict with a
shrinking local pool; on success the entry is added to the group and to
the picked list; `none` when the pool is exhausted. -/
def select (rand : List Nat) (entries : List Entry) (g : Group)
    (picked : List Entry) (ir io : Bool) :
    Except PyError (Option Entry × Group × List Entry × List Nat) :=
  selectGo entries.length rand entries g picked ir io

/-- One `for group in groups:` pass shared by all three phases of
`Manager._draw`: break when the source pool is empty, skip a group on its
phase-specific condition, otherwise `_select`, and on success remove the
placed entry from the source pool. -/
def passGroups (sk : Group → Bool) (ir io : Bool) :
    List Group → List Entry → List Entry → List Nat →
    Except PyError (List Group × List Entry × List Entry × List Nat)
  | [], sources, picked, rand => .ok ([], sources, picked, rand)
  | g :: rest, sources, picked, rand =>
    if sources.isEmpty then .ok (g :: rest, sources, picked, rand)
    else if sk g then
      match passGroups sk ir io rest sources picked rand with
      | .error err => .error err
      | .ok (rest', sources', picked', rand') => .ok (g :: rest', sources', picked', rand')
    else
      match select rand sources g picked ir io with
      | .error err => .error err
      | .ok (none, g', picked', rand') =>
        match passGroups sk ir io rest sources picked' rand' with
        | .error err => .error err
        | .ok (rest', sources', picked'', rand'') =>
          .ok (g' :: rest', sources', picked'', rand'')
      | .ok (some e, g', picked', rand') =>
        match passGroups sk ir io rest (sources.erase e) picked' rand' with
        | .error err => .error err
        | .ok (rest', sources', picked'', rand'') =>
          .ok (g' :: rest', sources', picked'', rand'')

/-- `dict.setdefault(key, []).append(entry)` on an association list kept
in insertion order. -/
def addToIndex (m : List (String × List Entry)) (k : String) (e : Entry) :
    List (String × List Entry) :=
  match m with
  | [] => [(k, [e])]
  | (k', l) :: rest =>
    if k' = k then (k', l ++ [e]) :: rest else (k', l) :: addToIndex rest k e

/-- The extractor's restricted index: levels in first-appearance order,
each with its entries; entries with a falsy level are absent. -/
def restrictedEntries (entries : List Entry) : List (String × List Entry) :=
  entries.foldl
    (fun m e =>
      match e.restricted_level with
      | some s => if s = "" then m else addToIndex m s e
      | none => m)
    []

/-- The extractor's optional index, built the same way. -/
def optionalEntries (entries : List Entry) : List (String × List Entry) :=
  entries.foldl
    (fun m e =>
      match e.optional_level with
      | some s => if s = "" then m else addToIndex m s e
      | none => m)
    []

/-- The extractor's `restricted_count`: each restricted level with its
population size. -/
def restrictedCount (entries : List Entry) : List (String × Nat) :=
  (restrictedEntries entries).map (fun p => (p.1, p.2.length))

/-- Phases 1 and 2 of `Manager._draw`: for each level of the given index
(in insertion order), one `passGroups` pass whose source pool is that
level's not-yet-picked entries. -/
def runLevels (skipOf : String → Group → Bool) (ir io : Bool) :
    List (String × List Entry) → List Group → List Entry → List Nat →
    Except PyError (List Group × List Entry × List Nat)
  | [], gs, picked, rand => .ok (gs, picked, rand)
  | (lvl, items) :: rest, gs, picked, rand =>
    match passGroups (skipOf lvl) ir io gs
        (items.filter (fun e => !(picked.contains e))) picked rand with
    | .error err => .error err
    | .ok (gs', _, picked', rand') => runLevels skipOf ir io rest gs' picked' rand'

/-- One full sweep of the group pool in phase 3: only full groups are
skipped, the restricted check is always on, and the optional check is on
exactly when fewer than 10 sweeps have completed (`tried_optional < 10`). -/
def phase3Sweep (tried : Nat) (gs : List Group) (sources picked : List Entry)
    (rand : List Nat) :
    Except PyError (List Group × List Entry × List Entry × List Nat) :=
  passGroups (fun g => g.is_full) true (decide (tried < 10)) gs sources picked rand

/-- The outcome of a (possibly fuel-truncated) draw: `done` records
whether the phase-3 `while` loop has exited, and the groups, picked list
and remaining phase-3 source pool are the loop state at that point. -/
structure DrawOut where
  done : Bool
  groups : List Group
  picked : List Entry
  sources : List Entry
deriving DecidableEq, Repr

/-- The phase-3 `while len(picked) < count:` loop, fuel-bounded: each
unit of fuel is one full sweep (`tried_optional` increments after each). -/
def phase3Loop (count : Nat) (fuel tried : Nat) (gs : List Group)
    (sources picked : List Entry) (rand : List Nat) : Except PyError DrawOut :=
  if picked.length < count then
    match fuel with
    | 0 => .ok ⟨false, gs, picked, sources⟩
    | f + 1 =>
      match phase3Sweep tried gs sources picked rand with
      | .error err => .error err
      | .ok (gs', sources', picked', rand') =>
        phase3Loop count f (tried + 1) gs' sources' picked' rand'
  else .ok ⟨true, gs, picked, sources⟩

/-- `Manager._draw`: build the empty groups, run phase 1 over the
restricted index, phase 2 over the optional index, then the phase-3 fill
loop over everything not yet picked. -/
def draw (entries : List Entry) (total_groups group_size : Nat)
    (rand : List Nat) (fuel : Nat) : Except PyError DrawOut :=
  let groups := (List.range total_groups).map
    (fun i => (⟨"Group " ++ toString (i + 1), group_size, []⟩ : Group))
  match runLevels (fun lvl g => g.is_full || g.has_restricted (some lvl)) false true
      (restrictedEntries entries) groups [] rand with
  | .error err => .error err
  | .ok (gs1, picked1, rand1) =>
    match runLevels (fun lvl g => g.is_full || g.has_optional (some lvl)) true false
        (optionalEntries entries) gs1 picked1 rand1 with
    | .error err => .error err
    | .ok (gs2, picked2, rand2) =>
      phase3Loop entries.length fuel 0 gs2
        (entries.filter (fun e => !(picked2.contains e))) picked2 rand2

/-- Python `str.isspace`: nonempty and all whitespace. -/
def pyIsSpace (s : String) : Bool :=
  !s.isEmpty && s.data.all (fun c => c.isWhitespace)

/-- Leading and trailing whitespace removed from a character list. -/
def stripChars (l : List Char) : List Char :=
  ((l.dropWhile Char.isWhitespace).reverse.dropWhile Char.isWhitespace).reverse

/-- Python `str.strip` (leading and trailing whitespace removed). -/
def pyStrip (s : String) : String :=
  String.mk (stripChars s.data)

/-- Python `str.rstrip`. -/
def pyRstrip (s : String) : String :=
  String.mk ((s.data.reverse.dropWhile Char.isWhitespace).reverse)

/-- Python `str.split(sep)` for the one-character separator the
repository's `settings.SEP` holds (the settings module only defines this
constant; the split below mirrors `str.split`: no merging of adjacent
separators, `[""]` on the empty string). -/
def splitOnChar (sep : Char) : List Char → List (List Char)
  | [] => [[]]
  | c :: cs =>
    match splitOnChar sep cs with
    | [] => [[c]]
    | h :: t => if c = sep then [] :: h :: t else (c :: h) :: t

/-- `item.split(SEP)` as a list of strings. -/
def pySplit (sep : Char) (item : String) : List String :=
  (splitOnChar sep item.data).map String.mk

/-- The extractor's level normalisation: keep a truthy, non-whitespace
field (stripped), otherwise `None`. -/
def normalizeLevel (lvl : Option String) : Option String :=
  match lvl with
  | some s => if !(s == "") && !(pyIsSpace s) then some (pyStrip s) else none
  | none => none

/-- The message of the `Invalid name found` ValueError for 0-based line
`index` holding `item`. -/
def invalidNameMsg (index : Nat) (item : String) : String :=
  "Invalid name found for entry: [" ++ toString (index + 1) ++ "-" ++ pyRstrip item ++ "]"

/-- One iteration of the line loop of `Extractor._extract_entries`:
`ok none` for a skipped blank line, `ok (some entry)` for a parsed entry,
`error` for a raised ValueError.  On a line splitting into more than 3
fields the source builds `ValueError(f'Invalid entry found: ...')` but
never raises it (the expression result is discarded); all three name
variables then remain `None`, so the following name check raises the
`Invalid name found` error instead. -/
def processLine (sep : Char) (index : Nat) (item : String) :
    Except PyError (Option Entry) :=
  if (item == "") || (pyStrip item == "") || pyIsSpace (pyStrip item) then .ok none
  else
    let parts := pySplit sep item
    let fields : Option String × Option String × Option String :=
      match parts with
      | [p0] => (some (pyStrip p0), none, none)
      | [p0, p1] => (some (pyStrip p0), some (pyStrip p1), none)
      | [p0, p1, p2] => (some (pyStrip p0), some (pyStrip p1), some (pyStrip p2))
      | _ => (none, none, none)
    match fields.1 with
    | none => .error ⟨"ValueError", invalidNameMsg index item⟩
    | some nm =>
      if (nm == "") || pyIsSpace nm then .error ⟨"ValueError", invalidNameMsg index item⟩
      else .ok (some ⟨nm, index + 1, normalizeLevel fields.2.1, normalizeLevel fields.2.2⟩)

/-- The line loop of `Extractor._extract_entries` from 0-based index `i`. -/
def extractLoop (sep : Char) : Nat → List String → Except PyError (List Entry)
  | _, [] => .ok []
  | i, l :: rest =>
    match processLine sep i l with
    | .error err => .error err
    | .ok none => extractLoop sep (i + 1) rest
    | .ok (some e) =>
      match extractLoop sep (i + 1) rest with
      | .error err => .error err
      | .ok es => .ok (e :: es)

/-- `Extractor._extract_entries` restricted to its entry list result
(the indexes and counts are `restrictedEntries`/`optionalEntries`/
`restrictedCount` of this list). -/
def extractEntries (sep : Char) (lines : List String) : Except PyError (List Entry) :=
  match extractLoop sep 0 lines with
  | .error err => .error err
  | .ok es =>
    if es.isEmpty then .error ⟨"ValueError", "No valid entries found."⟩ else .ok es

/-- CPython's hash of a nonnegative `int`: reduction modulo the Mersenne
prime 2^61 - 1 (`sys.hash_info.modulus` on 64-bit builds). -/
def pyIntHash (n : Nat) : Nat :=
  n % (2 ^ 61 - 1)

/-- Hash of an optional string given a string hash `hs` and the hash
`hNone` of `None`. -/
def pyOptStrHash (hs : String → Nat) (hNone : Nat) : Option String → Nat
  | none => hNone
  | some s => hs s

/-- `Entry.__hash__`: the tuple hash of
`(row, name, restricted_level, optional_level)`.  The string hash `hs`,
the hash of `None` and the tuple-combining function are abstract: every
theorem below holds for all of them, so in particular for CPython's. -/
def pyEntryHash (hs : String → Nat) (hNone : Nat) (hTuple : List Nat → Nat)
    (e : Entry) : Nat :=
  hTuple [pyIntHash e.row, hs e.name,
    pyOptStrHash hs hNone e.restricted_level, pyOptStrHash hs hNone e.optional_level]

/-- `Entry.__eq__` between two entries: CPython compares the two hashes,
not the fields. -/
def pyEntryEq (hs : String → Nat) (hNone : Nat) (hTuple : List Nat → Nat)
    (a b : Entry) : Bool :=
  pyEntryHash hs hNone hTuple a == pyEntryHash hs hNone hTuple b

/-- No two members of the group share a truthy restricted level.  For
entries produced by the extractor a restricted level is never the empty
string (`normalizeLevel`), so truthy coincides with non-`None` there. -/
def noDupRestricted (g : Group) : Prop :=
  g.entries.Pairwise
    (fun a b => truthy a.restricted_level = true → a.restricted_level ≠ b.restricted_level)

/-- Every entry filed under a level key of an index carries exactly that
restricted level (holds for `restrictedEntries` by construction). -/
def IndexInv (m : List (String × List Entry)) : Prop :=
  ∀ p ∈ m, ∀ x ∈ p.2, x.restricted_level = some p.1

/-- The exception kind of a raised computation, `none` when it returned. -/
def errKind {α : Type} : Except PyError α → Option String
  | .error e => some e.kind
  | .ok _ => none

/-- Livelock witness input, entry 1: restricted "A", optional "P". -/
def lkA1 : Entry := ⟨"a1", 1, some "A", some "P"⟩

/-- Livelock witness input, entry 2: restricted "A", optional "Q". -/
def lkA2 : Entry := ⟨"a2", 2, some "A", some "Q"⟩

/-- Livelock witness input, entry 3: restricted "B", optional "P". -/
def lkB1 : Entry := ⟨"b1", 3, some "B", some "P"⟩

/-- Livelock witness input, entry 4: restricted "B", optional "P". -/
def lkB2 : Entry := ⟨"b2", 4, some "B", some "P"⟩

/-- Livelock witness input, entry 5: no restricted level, optional "Q". -/
def lkU1 : Entry := ⟨"u1", 5, none, some "Q"⟩

/-- Livelock witness input, entry 6: no restricted level, optional "Q". -/
def lkU2 : Entry := ⟨"u2", 6, none, some "Q"⟩

/-- A six-entry list the validator accepts for group size 3 (restricted
populations A:2 and B:2, both at most the 2 groups). -/
def livelockEntries : List Entry := [lkA1, lkA2, lkB1, lkB2, lkU1, lkU2]

/-- One realisable sequence of random choices on `livelockEntries`:
index 0 everywhere except the 47th choice (the phase-3 sweep-11 pick for
Group 1), which takes index 1. -/
def livelockRand : List Nat := List.replicate 46 0 ++ [1, 0]

/-- The stuck phase-3 state the livelock run freezes in: Group 1 full
with a1, u1, u2; Group 2 holding a2 and b1; b2 unplaced forever. -/
def livelockOut : DrawOut :=
  ⟨false,
    [⟨"Group 1", 3, [lkA1, lkU1, lkU2]⟩, ⟨"Group 2", 3, [lkA2, lkB1]⟩],
    [lkA1, lkA2, lkB1, lkU1, lkU2], [lkB2]⟩

end Drawpia

namespace Drawpia

theorem addAttempt_size (g : Group) (e : Entry) : (addAttempt g e).size = g.size := by
  by_cases h1 : g.is_full = true <;> by_cases h2 : e ∈ g.entries <;>
    simp [addAttempt, Group.add, h1, h2]

theorem addAttempt_le (g : Group) (e : Entry) (h : g.entries.length ≤ g.size) :
    (addAttempt g e).entries.length ≤ g.size := by
  by_cases h1 : g.is_full = true
  · simp [addAttempt, Group.add, h1, h]
  · by_cases h2 : e ∈ g.entries
    · simp [addAttempt, Group.add, h1, h2, h]
    · have hlt : g.entries.length < g.size := by
        have := h1
        simp [Group.is_full] at this
        omega
      simp [addAttempt, Group.add, h1, h2]
      omega

theorem applyAdds_le (es : List Entry) : ∀ (g : Group), g.entries.length ≤ g.size →
    (applyAdds g es).entries.length ≤ g.size := by
  induction es with
  | nil => intro g h; exact h
  | cons e es ih =>
    intro g h
    have h1 : applyAdds g (e :: es) = applyAdds (addAttempt g e) es := rfl
    rw [h1]
    have h2 := addAttempt_size g e
    have h3 := ih (addAttempt g e) (by rw [h2]; exact addAttempt_le g e h)
    rw [h2] at h3
    exact h3

/-- C6: `Group.add` raises on a full group, raises on a duplicate member,
otherwise appends; a caller that catches the error sees the group
unchanged; and under any sequence of `add` calls (failures caught) the
member count never exceeds the size. -/
theorem group_add_spec (g : Group) (e : Entry) :
    (g.is_full = true → g.add e = .error ⟨"ValueError",
      "Group [" ++ g.name ++ "] is full with [" ++ toString g.size ++ "] entries."⟩)
    ∧ (g.is_full = false → g.entries.contains e = true → g.add e = .error ⟨"ValueError",
      "Entry " ++ entryStr e ++ " is already added to group [" ++ g.name ++ "]"⟩)
    ∧ (g.is_full = false → g.entries.contains e = false →
      g.add e = .ok ⟨g.name, g.size, g.entries ++ [e]⟩)
    ∧ (∀ err, g.add e = .error err → addAttempt g e = g)
    ∧ (g.entries.length ≤ g.size → ∀ es, (applyAdds g es).entries.length ≤ g.size) := by
  refine ⟨?_, ?_, ?_, ?_, ?_⟩
  · intro h; simp [Group.add, h]
  · intro h1 h2
    have h2' : e ∈ g.entries := by simpa using h2
    simp [Group.add, h1, h2']
  · intro h1 h2
    have h2' : e ∉ g.entries := by simpa using h2
    simp [Group.add, h1, h2']
  · intro err h; simp [addAttempt, h]
  · intro h es; exact applyAdds_le es g h

theorem group_add_spec_witness :
    (⟨"G", 1, [lkA1]⟩ : Group).add lkA2 = .error ⟨"ValueError",
      "Group [G] is full with [1] entries."⟩ :=
  (group_add_spec ⟨"G", 1, [lkA1]⟩ lkA2).1 (by decide)

/-- C10: `has_restricted` and `has_optional` are false for a `None` or
empty level whatever the members are, so an entry with no tag in a
dimension is never rejected by that dimension's check in `_select`. -/
theorem has_level_falsy (g : Group) :
    (∀ lvl, (lvl = none ∨ lvl = some "") →
      g.has_restricted lvl = false ∧ g.has_optional lvl = false)
    ∧ (∀ (e : Entry) (ir io : Bool), truthy e.restricted_level = false →
      selectConflict g e ir io = (io && g.has_optional e.optional_level))
    ∧ (∀ (e : Entry) (ir io : Bool), truthy e.optional_level = false →
      selectConflict g e ir io = (ir && g.has_restricted e.restricted_level)) := by
  refine ⟨?_, ?_, ?_⟩
  · rintro lvl (rfl | rfl) <;> 
      simp [Group.has_restricted, Group.has_optional, truthy]
  · intro e ir io h
    simp [selectConflict, Group.has_restricted, h]
  · intro e ir io h
    simp [selectConflict, Group.has_optional, h]

theorem has_level_falsy_witness :
    ((⟨"G", 2, [lkA1]⟩ : Group).has_restricted none = false
      ∧ (⟨"G", 2, [lkA1]⟩ : Group).has_optional none = false)
    ∧ selectConflict ⟨"G", 2, [lkA1]⟩ lkU1 true true
      = (true && (⟨"G", 2, [lkA1]⟩ : Group).has_optional lkU1.optional_level) :=
  ⟨(has_level_falsy _).1 none (Or.inl rfl), (has_level_falsy _).2.1 lkU1 true true (by decide)⟩

/-- C4: the phase-3 sweep enforces the restricted exclusion on every
sweep (`ir` is the literal `true` on both sides) and the optional
exclusion exactly on the first 10 sweeps (`tried_optional` values 0..9);
from the 11th sweep on the optional flag is dropped. -/
theorem phase3_relaxation (tried : Nat) (gs : List Group) (srcs picked : List Entry)
    (rand : List Nat) :
    (tried < 10 → phase3Sweep tried gs srcs picked rand
      = passGroups (fun g => g.is_full) true true gs srcs picked rand)
    ∧ (10 ≤ tried → phase3Sweep tried gs srcs picked rand
      = passGroups (fun g => g.is_full) true false gs srcs picked rand) := by
  constructor
  · intro h
    unfold phase3Sweep
    rw [decide_eq_true h]
  · intro h
    unfold phase3Sweep
    rw [decide_eq_false (by omega)]

theorem phase3_relaxation_witness :
    phase3Sweep 0 [] [] [] [] = passGroups (fun g => g.is_full) true true [] [] [] []
    ∧ phase3Sweep 10 [] [] [] [] = passGroups (fun g => g.is_full) true false [] [] [] [] :=
  ⟨(phase3_relaxation 0 [] [] [] []).1 (by decide),
    (phase3_relaxation 10 [] [] [] []).2 (by decide)⟩

/-- C8: `Entry.__eq__` compares hashes, and the CPython integer hash is
reduction mod 2^61 - 1, so the entries ("a", row 1) and ("a", row 2^61)
with no levels compare equal for every string hash, `None` hash and
tuple-combining function, although their rows differ. -/
theorem entry_eq_hash_collision :
    ∀ (hs : String → Nat) (hNone : Nat) (hTuple : List Nat → Nat),
      pyEntryEq hs hNone hTuple ⟨"a", 1, none, none⟩ ⟨"a", 2 ^ 61, none, none⟩ = true
      ∧ (⟨"a", 1, none, none⟩ : Entry) ≠ ⟨"a", 2 ^ 61, none, none⟩ := by
  intro hs hNone hTuple
  constructor
  · have h : pyIntHash (2 ^ 61) = pyIntHash 1 := by decide
    simp only [pyEntryEq, pyEntryHash, pyOptStrHash, h, beq_self_eq_true]
  · intro h
    have : (1 : Nat) = 2 ^ 61 := congrArg Entry.row h
    omega

end Drawpia

namespace Drawpia

theorem pyIsDigit_ne_empty {s : String} (h : pyIsDigit s = true) : (s == "") = false := by
  rcases hs : s == "" with _ | _
  · rfl
  · exfalso
    have : s = "" := by simpa using hs
    subst this
    simp [pyIsDigit, String.isEmpty] at h

/-- C3: the validator accepts exactly when the group-size string is a
digit string denoting a positive integer that is at most the entry count
and divides it evenly, with every restricted population at most
`count / n`; on acceptance it yields exactly `(pyInt s, count / pyInt s)`,
and otherwise it raises. -/
theorem validate_spec (count : Nat) (rc : List (String × Nat)) (s : String) :
    ((validate count rc s).isOk = true ↔
      (pyIsDigit s = true ∧ 0 < pyInt s ∧ pyInt s ≤ count ∧ count % pyInt s = 0 ∧
        ∀ p ∈ rc, p.2 ≤ count / pyInt s))
    ∧ (∀ n tg, validate count rc s = .ok (n, tg) → n = pyInt s ∧ tg = count / pyInt s) := by
  by_cases hd : pyIsDigit s = true
  · have hne := pyIsDigit_ne_empty hd
    by_cases h0 : pyInt s = 0
    · refine ⟨iff_of_false (by simp [validate, hne, hd, h0]; rfl) ?_, ?_⟩
      · rintro ⟨-, hpos, -⟩
        omega
      · intro n tg h
        simp [validate, hne, hd, h0] at h
    · by_cases hlt : count < pyInt s
      · refine ⟨iff_of_false (by simp [validate, hne, hd, h0, hlt]; rfl) ?_, ?_⟩
        · rintro ⟨-, -, hle, -⟩
          omega
        · intro n tg h
          simp [validate, hne, hd, h0, hlt] at h
      · by_cases hmod : count % pyInt s = 0
        · cases hf : rc.find? (fun p => count / pyInt s < p.2) with
          | some p =>
            have hmem := List.mem_of_find?_eq_some hf
            have hp : count / pyInt s < p.2 := by
              have := List.find?_some hf
              simpa using this
            refine ⟨iff_of_false (by simp [validate, hne, hd, h0, hlt, hmod, hf]; rfl) ?_, ?_⟩
            · rintro ⟨-, -, -, -, hall⟩
              exact absurd hp (not_lt.mpr (hall p hmem))
            · intro n tg h
              simp [validate, hne, hd, h0, hlt, hmod, hf] at h
          | none =>
            have hall : ∀ p ∈ rc, p.2 ≤ count / pyInt s := by
              intro p hp
              have := List.find?_eq_none.mp hf p hp
              simpa using this
            have hok : validate count rc s = .ok (pyInt s, count / pyInt s) := by
              simp [validate, hne, hd, h0, hlt, hmod, hf]
            refine ⟨iff_of_true (by rw [hok]; rfl)
              ⟨hd, Nat.pos_of_ne_zero h0, not_lt.mp hlt, hmod, hall⟩, ?_⟩
            intro n tg h
            rw [hok] at h
            injection h with h'
            exact ⟨(congrArg Prod.fst h').symm, (congrArg Prod.snd h').symm⟩
        · refine ⟨iff_of_false (by simp [validate, hne, hd, h0, hlt, hmod]; rfl) ?_, ?_⟩
          · rintro ⟨-, -, -, hm, -⟩
            exact hmod hm
          · intro n tg h
            simp [validate, hne, hd, h0, hlt, hmod] at h
  · have hd' : pyIsDigit s = false := by simpa using hd
    refine ⟨iff_of_false (by simp [validate, hd']; rfl) ?_, ?_⟩
    · rintro ⟨hdt, -⟩
      rw [hd'] at hdt
      exact Bool.false_ne_true hdt
    · intro n tg h
      simp [validate, hd'] at h

theorem validate_spec_witness :
    (validate 6 [("A", 2), ("B", 2)] "3").isOk = true :=
  (validate_spec 6 [("A", 2), ("B", 2)] "3").1.mpr (by decide)

end Drawpia

namespace Drawpia

/-- C7 (amended): the four checks run in the stated order, each failing
with its own message, but every failure - the restricted-infeasibility
one included - raises the same exception kind `ValueError`; the fourth
check does not raise a distinct error kind. -/
theorem validate_check_order (count : Nat) (rc : List (String × Nat)) (s : String) :
    (((s == "") = true ∨ pyIsDigit s = false) →
      validate count rc s = .error ⟨"ValueError", "Group size is invalid."⟩)
    ∧ (pyIsDigit s = true → pyInt s = 0 →
      validate count rc s = .error ⟨"ValueError", "Group size must be a positive integer."⟩)
    ∧ (pyIsDigit s = true → 0 < pyInt s → count < pyInt s →
      validate count rc s = .error ⟨"ValueError",
        "Group size can not be bigger than entries count which is [" ++
          toString count ++ "]"⟩)
    ∧ (pyIsDigit s = true → 0 < pyInt s → pyInt s ≤ count → count % pyInt s ≠ 0 →
      validate count rc s = .error ⟨"ValueError",
        "Entries count is [" ++ toString count ++
          "] which is not dividable by group size [" ++ toString (pyInt s) ++ "]."⟩)
    ∧ (pyIsDigit s = true → 0 < pyInt s → pyInt s ≤ count → count % pyInt s = 0 →
      ∀ p, rc.find? (fun p => count / pyInt s < p.2) = some p →
        validate count rc s = .error ⟨"ValueError",
          "There are [" ++ toString p.2 ++ "] entries with restricted level [" ++
            p.1 ++ "], but there would be only [" ++ toString (count / pyInt s) ++
            "] groups in total. entries with the same restricted level can not " ++
            "be put in the same group."⟩)
    ∧ (∀ err, validate count rc s = .error err → err.kind = "ValueError") := by
  refine ⟨?_, ?_, ?_, ?_, ?_, ?_⟩
  · rintro (h | h)
    · have : s = "" := by simpa using h
      subst this
      rfl
    · simp [validate, h]
  · intro hd h0
    simp [validate, pyIsDigit_ne_empty hd, hd, h0]
  · intro hd hpos hlt
    simp [validate, pyIsDigit_ne_empty hd, hd, Nat.pos_iff_ne_zero.mp hpos, hlt]
  · intro hd hpos hle hmod
    simp [validate, pyIsDigit_ne_empty hd, hd, Nat.pos_iff_ne_zero.mp hpos,
      Nat.not_lt.mpr hle, hmod]
  · intro hd hpos hle hmod p hf
    simp [validate, pyIsDigit_ne_empty hd, hd, Nat.pos_iff_ne_zero.mp hpos,
      Nat.not_lt.mpr hle, hmod, hf]
  · intro err h
    unfold validate at h
    split at h
    · injection h with h'
      rw [← h']
    · simp only [] at h
      split at h
      · injection h with h'
        rw [← h']
      · split at h
        · injection h with h'
          rw [← h']
        · split at h
          · injection h with h'
            rw [← h']
          · split at h
            · injection h with h'
              rw [← h']
            · injection h

theorem validate_check_order_witness :
    validate 0 [] "x" = .error ⟨"ValueError", "Group size is invalid."⟩ :=
  (validate_check_order 0 [] "x").1 (Or.inr (by decide))

/-- C7 counterexample: the restricted-infeasibility failure (fourth
check) raises the same error kind as the malformed-group-size failure
(first check): both are a `ValueError`, so the fourth failure is not a
different error kind distinguishable by the caller. -/
theorem validate_same_kind :
    errKind (validate 4 [("A", 3)] "2") = errKind (validate 4 [] "x")
    ∧ errKind (validate 4 [("A", 3)] "2") = some "ValueError" := by
  constructor <;> rfl

/-- C9 (amended): on a line splitting into more than 3
separator-delimited fields the extractor constructs but never raises the
`Invalid entry found` error; the line does not pass through silently,
however: no name is assigned, so the following name check raises
`Invalid name found` and extraction aborts. -/
theorem processLine_four_fields (sep : Char) (i : Nat) (item : String)
    (h0 : (item == "") = false) (h1 : (pyStrip item == "") = false)
    (h2 : pyIsSpace (pyStrip item) = false)
    (h3 : 4 ≤ (pySplit sep item).length) :
    processLine sep i item = .error ⟨"ValueError", invalidNameMsg i item⟩ := by
  unfold processLine
  rw [h0, h1, h2]
  simp only [Bool.false_or, Bool.or_self, Bool.false_eq_true, if_false]
  rcases hp : pySplit sep item with _ | ⟨a, _ | ⟨b, _ | ⟨c, _ | ⟨d, t⟩⟩⟩⟩ <;>
    rw [hp] at h3
  all_goals first | rfl | simp at h3

theorem processLine_four_fields_witness :
    processLine '-' 0 "a-b-c-d" = .error ⟨"ValueError", invalidNameMsg 0 "a-b-c-d"⟩ :=
  processLine_four_fields '-' 0 "a-b-c-d" (by decide) (by decide) (by decide) (by decide)

/-- C9 counterexample: a line with four fields does not pass through
silently; the whole extraction aborts with the `Invalid name found`
ValueError (while the constructed `Invalid entry found` error is indeed
never raised). -/
theorem extract_four_fields_aborts :
    extractEntries '-' ["a-b-c-d"] =
      .error ⟨"ValueError", "Invalid name found for entry: [1-a-b-c-d]"⟩ := by
  rfl

end Drawpia

namespace Drawpia

theorem Group.add_ok {g g' : Group} {e : Entry} (h : g.add e = .ok g') :
    g'.name = g.name ∧ g'.size = g.size ∧ g'.entries = g.entries ++ [e] := by
  by_cases h1 : g.is_full = true
  · simp [Group.add, h1] at h
  · by_cases h2 : e ∈ g.entries
    · simp [Group.add, h1, h2] at h
    · simp [Group.add, h1, h2] at h
      rw [← h]
      exact ⟨rfl, rfl, rfl⟩

theorem chosen_mem (e0 : Entry) (es : List Entry) (k : Nat) :
    (e0 :: es).getD (k % (e0 :: es).length) e0 ∈ e0 :: es := by
  rw [List.getD_eq_getElem?_getD]
  have hlt : k % (e0 :: es).length < (e0 :: es).length :=
    Nat.mod_lt _ (Nat.succ_pos _)
  rw [List.getElem?_eq_getElem hlt]
  simp only [Option.getD_some]
  exact List.getElem_mem hlt

theorem selectGo_none_of_all :
    ∀ (fuel : Nat) (rand : List Nat) (entries : List Entry) (g : Group)
      (picked : List Entry) (ir io : Bool),
      entries.length ≤ fuel → (∀ e ∈ entries, selectConflict g e ir io = true) →
      selectGo fuel rand entries g picked ir io
        = .ok (none, g, picked, rand.drop entries.length) := by
  intro fuel
  induction fuel with
  | zero =>
    intro rand entries g picked ir io hle _
    have : entries = [] := List.length_eq_zero.mp (Nat.le_zero.mp hle)
    subst this
    rfl
  | succ f ih =>
    intro rand entries g picked ir io hle hall
    cases entries with
    | nil => rfl
    | cons e0 es =>
      have hmem := chosen_mem e0 es (rand.headD 0)
      have hc := hall _ hmem
      have herase : ((e0 :: es).erase ((e0 :: es).getD (rand.headD 0 % (e0 :: es).length) e0)).length
          = es.length := by
        rw [List.length_erase_of_mem hmem]
        rfl
      have hle' : es.length ≤ f := by simpa using hle
      have hrec := ih rand.tail ((e0 :: es).erase ((e0 :: es).getD (rand.headD 0 % (e0 :: es).length) e0))
        g picked ir io (by rw [herase]; exact hle')
        (fun x hx => hall x (List.mem_of_mem_erase hx))
      simp only [selectGo, hc, if_true]
      rw [hrec, herase]
      cases rand with
      | nil => simp
      | cons r rs => rfl

theorem selectGo_ok_none :
    ∀ (fuel : Nat) (rand : List Nat) (entries : List Entry) (g : Group)
      (picked : List Entry) (ir io : Bool) (g' : Group) (p' : List Entry) (r' : List Nat),
      entries.length ≤ fuel →
      selectGo fuel rand entries g picked ir io = .ok (none, g', p', r') →
      (∀ e ∈ entries, selectConflict g e ir io = true) ∧ g' = g ∧ p' = picked := by
  intro fuel
  induction fuel with
  | zero =>
    intro rand entries g picked ir io g' p' r' hle h
    have : entries = [] := List.length_eq_zero.mp (Nat.le_zero.mp hle)
    subst this
    injection h with h'
    exact ⟨by simp, (congrArg (fun q => q.2.1) h').symm, (congrArg (fun q => q.2.2.1) h').symm⟩
  | succ f ih =>
    intro rand entries g picked ir io g' p' r' hle h
    cases entries with
    | nil =>
      injection h with h'
      exact ⟨by simp, (congrArg (fun q => q.2.1) h').symm, (congrArg (fun q => q.2.2.1) h').symm⟩
    | cons e0 es =>
      have hle' : es.length ≤ f := by simpa using hle
      have hmem := chosen_mem e0 es (rand.headD 0)
      by_cases hc : selectConflict g ((e0 :: es).getD (rand.headD 0 % (e0 :: es).length) e0) ir io = true
      · have herase : ((e0 :: es).erase ((e0 :: es).getD (rand.headD 0 % (e0 :: es).length) e0)).length
            = es.length := by
          rw [List.length_erase_of_mem hmem]
          rfl
        simp only [selectGo, hc, if_true] at h
        obtain ⟨hall', hg, hp⟩ := ih rand.tail _ g picked ir io g' p' r'
          (by rw [herase]; exact hle') h
        refine ⟨?_, hg, hp⟩
        intro x hx
        by_cases hxs : x = (e0 :: es).getD (rand.headD 0 % (e0 :: es).length) e0
        · rw [hxs]
          exact hc
        · exact hall' x ((List.mem_erase_of_ne hxs).mpr hx)
      · have hc' : selectConflict g ((e0 :: es).getD (rand.headD 0 % (e0 :: es).length) e0) ir io = false :=
          by simpa using hc
        simp only [selectGo] at h
        rw [if_neg hc] at h
        cases hadd : g.add ((e0 :: es).getD (rand.headD 0 % (e0 :: es).length) e0) with
        | error err =>
          rw [hadd] at h
          simp at h
        | ok g2 =>
          rw [hadd] at h
          simp at h

theorem selectGo_ok_some :
    ∀ (fuel : Nat) (rand : List Nat) (entries : List Entry) (g : Group)
      (picked : List Entry) (ir io : Bool) (e : Entry) (g' : Group)
      (p' : List Entry) (r' : List Nat),
      entries.length ≤ fuel →
      selectGo fuel rand entries g picked ir io = .ok (some e, g', p', r') →
      e ∈ entries ∧ selectConflict g e ir io = false ∧
        g'.entries = g.entries ++ [e] ∧ p' = picked ++ [e] := by
  intro fuel
  induction fuel with
  | zero =>
    intro rand entries g picked ir io e g' p' r' hle h
    have : entries = [] := List.length_eq_zero.mp (Nat.le_zero.mp hle)
    subst this
    simp [selectGo] at h
  | succ f ih =>
    intro rand entries g picked ir io e g' p' r' hle h
    cases entries with
    | nil => simp [selectGo] at h
    | cons e0 es =>
      have hle' : es.length ≤ f := by simpa using hle
      have hmem := chosen_mem e0 es (rand.headD 0)
      by_cases hc : selectConflict g ((e0 :: es).getD (rand.headD 0 % (e0 :: es).length) e0) ir io = true
      · have herase : ((e0 :: es).erase ((e0 :: es).getD (rand.headD 0 % (e0 :: es).length) e0)).length
            = es.length := by
          rw [List.length_erase_of_mem hmem]
          rfl
        simp only [selectGo, hc, if_true] at h
        obtain ⟨hmem', hcf, hg, hp⟩ := ih rand.tail _ g picked ir io e g' p' r'
          (by rw [herase]; exact hle') h
        exact ⟨List.mem_of_mem_erase hmem', hcf, hg, hp⟩
      · have hc' : selectConflict g ((e0 :: es).getD (rand.headD 0 % (e0 :: es).length) e0) ir io = false :=
          by simpa using hc
        simp only [selectGo] at h
        rw [if_neg hc] at h
        cases hadd : g.add ((e0 :: es).getD (rand.headD 0 % (e0 :: es).length) e0) with
        | error err =>
          rw [hadd] at h
          simp at h
        | ok g2 =>
          rw [hadd] at h
          injection h with h'
          have he : (e0 :: es).getD (rand.headD 0 % (e0 :: es).length) e0 = e :=
            Option.some.inj (congrArg (fun q => q.1) h')
          have hg2 : g2 = g' := congrArg (fun q => q.2.1) h'
          have hpk : picked ++ [(e0 :: es).getD (rand.headD 0 % (e0 :: es).length) e0] = p' :=
            congrArg (fun q => q.2.2.1) h'
          obtain ⟨-, -, hent⟩ := Group.add_ok hadd
          refine ⟨?_, ?_, ?_, ?_⟩
          · rw [← he]
            exact hmem
          · rw [← he]
            exact hc'
          · rw [← hg2, hent, he]
          · rw [← hpk, he]

/-- C5: `_select` returns `None` exactly when every candidate conflicts
under the enabled checks (vacuously so for an empty candidate list), in
which case the group and picked list are unchanged (and the random
stream advanced once per discarded candidate); when it returns an entry,
that entry is a non-conflicting candidate appended to both the group's
member list and the picked list. -/
theorem select_spec (rand : List Nat) (entries : List Entry) (g : Group)
    (picked : List Entry) (ir io : Bool) :
    ((∀ e ∈ entries, selectConflict g e ir io = true) →
      select rand entries g picked ir io = .ok (none, g, picked, rand.drop entries.length))
    ∧ (∀ g' p' r', select rand entries g picked ir io = .ok (none, g', p', r') →
      (∀ e ∈ entries, selectConflict g e ir io = true) ∧ g' = g ∧ p' = picked)
    ∧ (∀ e g' p' r', select rand entries g picked ir io = .ok (some e, g', p', r') →
      e ∈ entries ∧ selectConflict g e ir io = false ∧
        g'.entries = g.entries ++ [e] ∧ p' = picked ++ [e]) :=
  ⟨selectGo_none_of_all entries.length rand entries g picked ir io le_rfl,
    fun g' p' r' => selectGo_ok_none entries.length rand entries g picked ir io g' p' r' le_rfl,
    fun e g' p' r' => selectGo_ok_some entries.length rand entries g picked ir io e g' p' r' le_rfl⟩

theorem select_spec_witness :
    select [0] [lkB2] ⟨"Group 2", 3, [lkA2, lkB1]⟩ [] true false
      = .ok (none, ⟨"Group 2", 3, [lkA2, lkB1]⟩, [], []) :=
  (select_spec [0] [lkB2] ⟨"Group 2", 3, [lkA2, lkB1]⟩ [] true false).1 (by decide)

end Drawpia

namespace Drawpia

theorem IndexInv_addToIndex {m : List (String × List Entry)} {k : String} {e : Entry}
    (hm : IndexInv m) (he : e.restricted_level = some k) : IndexInv (addToIndex m k e) := by
  induction m with
  | nil =>
    intro p hp x hx
    have hp' : p = (k, [e]) := by simpa [addToIndex] using hp
    rw [hp'] at hx ⊢
    have hx' : x = e := by simpa using hx
    rw [hx']
    exact he
  | cons q rest ih =>
    rcases q with ⟨k', l⟩
    by_cases hk : k' = k
    · intro p hp x hx
      rw [show addToIndex ((k', l) :: rest) k e = (k', l ++ [e]) :: rest from by
        simp [addToIndex, hk]] at hp
      rcases List.mem_cons.mp hp with hp | hp
      · rw [hp] at hx ⊢
        rcases List.mem_append.mp hx with hx | hx
        · exact hm (k', l) (List.mem_cons_self _ _) x hx
        · have hx' : x = e := by simpa using hx
          rw [hx', he, hk]
      · exact hm p (List.mem_cons_of_mem _ hp) x hx
    · intro p hp x hx
      rw [show addToIndex ((k', l) :: rest) k e = (k', l) :: addToIndex rest k e from by
        simp [addToIndex, hk]] at hp
      rcases List.mem_cons.mp hp with hp | hp
      · rw [hp] at hx ⊢
        exact hm (k', l) (List.mem_cons_self _ _) x hx
      · exact ih (fun q hq y hy => hm q (List.mem_cons_of_mem _ hq) y hy) p hp x hx

theorem restrictedEntries_inv (entries : List Entry) : IndexInv (restrictedEntries entries) := by
  suffices h : ∀ (l : List Entry) (m : List (String × List Entry)), IndexInv m →
      IndexInv (l.foldl (fun m e =>
        match e.restricted_level with
        | some s => if s = "" then m else addToIndex m s e
        | none => m) m) by
    exact h entries [] (by intro p hp; simp at hp)
  intro l
  induction l with
  | nil => intro m hm; exact hm
  | cons e es ih =>
    intro m hm
    rw [List.foldl_cons]
    refine ih _ ?_
    cases hre : e.restricted_level with
    | none => simpa [hre] using hm
    | some s =>
      by_cases hs : s = ""
      · simpa [hre, hs] using hm
      · simp only [hre, hs, if_neg]
        exact IndexInv_addToIndex hm hre

theorem add_noDup {g g' : Group} {e : Entry} (hnd : noDupRestricted g)
    (hr : truthy e.restricted_level = true → g.has_restricted e.restricted_level = false)
    (hok : g.add e = .ok g') : noDupRestricted g' := by
  obtain ⟨-, -, hent⟩ := Group.add_ok hok
  unfold noDupRestricted at hnd ⊢
  rw [hent, List.pairwise_append]
  refine ⟨hnd, List.pairwise_singleton _ _, ?_⟩
  intro a ha b hb
  have hb' : b = e := by simpa using hb
  rw [hb']
  intro hta
  by_cases hte : truthy e.restricted_level = true
  · have hfr := hr hte
    unfold Group.has_restricted at hfr
    rw [if_pos hte] at hfr
    rw [List.any_eq_false] at hfr
    intro heq
    exact hfr a ha (by simp [heq])
  · intro heq
    rw [heq] at hta
    exact hte hta

end Drawpia

namespace Drawpia

theorem selectGo_noDup :
    ∀ (fuel : Nat) (rand : List Nat) (entries : List Entry) (g : Group)
      (picked : List Entry) (ir io : Bool)
      (res : Option Entry × Group × List Entry × List Nat),
      entries.length ≤ fuel →
      selectGo fuel rand entries g picked ir io = .ok res →
      noDupRestricted g →
      (ir = true ∨ ∀ x ∈ entries, truthy x.restricted_level = true →
        g.has_restricted x.restricted_level = false) →
      noDupRestricted res.2.1 := by
  intro fuel
  induction fuel with
  | zero =>
    intro rand entries g picked ir io res hle h hnd _
    have : entries = [] := List.length_eq_zero.mp (Nat.le_zero.mp hle)
    subst this
    injection h with h'
    exact (congrArg (fun q => q.2.1) h') ▸ hnd
  | succ f ih =>
    intro rand entries g picked ir io res hle h hnd hOr
    cases entries with
    | nil =>
      injection h with h'
      exact (congrArg (fun q => q.2.1) h') ▸ hnd
    | cons e0 es =>
      have hle' : es.length ≤ f := by simpa using hle
      have hmem := chosen_mem e0 es (rand.headD 0)
      by_cases hc : selectConflict g ((e0 :: es).getD (rand.headD 0 % (e0 :: es).length) e0) ir io = true
      · have herase : ((e0 :: es).erase ((e0 :: es).getD (rand.headD 0 % (e0 :: es).length) e0)).length
            = es.length := by
          rw [List.length_erase_of_mem hmem]
          rfl
        simp only [selectGo, hc, if_true] at h
        refine ih rand.tail _ g picked ir io res (by rw [herase]; exact hle') h hnd ?_
        rcases hOr with hir | hx
        · exact Or.inl hir
        · exact Or.inr (fun x hxm => hx x (List.mem_of_mem_erase hxm))
      · have hc' : selectConflict g ((e0 :: es).getD (rand.headD 0 % (e0 :: es).length) e0) ir io = false :=
          by simpa using hc
        simp only [selectGo] at h
        rw [if_neg hc] at h
        cases hadd : g.add ((e0 :: es).getD (rand.headD 0 % (e0 :: es).length) e0) with
        | error err =>
          rw [hadd] at h
          simp at h
        | ok g2 =>
          rw [hadd] at h
          injection h with h'
          have hg2 : g2 = res.2.1 := congrArg (fun q => q.2.1) h'
          rw [← hg2]
          refine add_noDup hnd ?_ hadd
          intro hte
          have hdisj := Bool.or_eq_false_iff.mp hc'
          rcases hOr with hir | hx
          · rw [hir] at hdisj
            simpa using hdisj.1
          · exact hx _ hmem hte

theorem select_noDup {rand : List Nat} {entries : List Entry} {g : Group}
    {picked : List Entry} {ir io : Bool}
    {res : Option Entry × Group × List Entry × List Nat}
    (h : select rand entries g picked ir io = .ok res)
    (hnd : noDupRestricted g)
    (hOr : ir = true ∨ ∀ x ∈ entries, truthy x.restricted_level = true →
      g.has_restricted x.restricted_level = false) :
    noDupRestricted res.2.1 :=
  selectGo_noDup entries.length rand entries g picked ir io res le_rfl h hnd hOr

theorem passGroups_noDup (sk : Group → Bool) (ir io : Bool) :
    ∀ (gs : List Group) (sources picked : List Entry) (rand : List Nat)
      (out : List Group × List Entry × List Entry × List Nat),
      passGroups sk ir io gs sources picked rand = .ok out →
      (∀ g ∈ gs, noDupRestricted g) →
      (ir = true ∨ ∀ x ∈ sources, truthy x.restricted_level = true →
        ∀ g : Group, sk g = false → g.has_restricted x.restricted_level = false) →
      ∀ g ∈ out.1, noDupRestricted g := by
  intro gs
  induction gs with
  | nil =>
    intro sources picked rand out h hin _
    injection h with h'
    intro g hg
    rw [← congrArg (fun q => q.1) h'] at hg
    simp at hg
  | cons g0 rest ih =>
    intro sources picked rand out h hin hOr
    simp only [passGroups] at h
    by_cases hemp : sources.isEmpty = true
    · rw [if_pos hemp] at h
      injection h with h'
      intro g hg
      rw [← congrArg (fun q => q.1) h'] at hg
      exact hin g hg
    · rw [if_neg hemp] at h
      by_cases hsk : sk g0 = true
      · rw [if_pos hsk] at h
        cases hrec : passGroups sk ir io rest sources picked rand with
        | error err =>
          rw [hrec] at h
          simp at h
        | ok pout =>
          rcases pout with ⟨rest', sources', picked', rand'⟩
          rw [hrec] at h
          injection h with h'
          intro g hg
          rw [← congrArg (fun q => q.1) h'] at hg
          rcases List.mem_cons.mp hg with hg | hg
          · rw [hg]
            exact hin g0 (List.mem_cons_self _ _)
          · exact ih sources picked rand (rest', sources', picked', rand') hrec
              (fun g hgm => hin g (List.mem_cons_of_mem _ hgm)) hOr g hg
      · have hsk' : sk g0 = false := by simpa using hsk
        rw [if_neg hsk] at h
        have hOrSel : ir = true ∨ ∀ x ∈ sources, truthy x.restricted_level = true →
            g0.has_restricted x.restricted_level = false := by
          rcases hOr with hir | hx
          · exact Or.inl hir
          · exact Or.inr (fun x hxm ht => hx x hxm ht g0 hsk')
        cases hsel : select rand sources g0 picked ir io with
        | error err =>
          rw [hsel] at h
          simp at h
        | ok sres =>
          rcases sres with ⟨oe, g1, p1, r1⟩
          rw [hsel] at h
          have hg1 : noDupRestricted g1 :=
            select_noDup hsel (hin g0 (List.mem_cons_self _ _)) hOrSel
          cases oe with
          | none =>
            simp only [] at h
            cases hrec : passGroups sk ir io rest sources p1 r1 with
            | error err =>
              rw [hrec] at h
              simp at h
            | ok pout =>
              rcases pout with ⟨rest', sources', picked'', rand''⟩
              rw [hrec] at h
              injection h with h'
              intro g hg
              rw [← congrArg (fun q => q.1) h'] at hg
              rcases List.mem_cons.mp hg with hg | hg
              · rw [hg]
                exact hg1
              · exact ih sources p1 r1 (rest', sources', picked'', rand'') hrec
                  (fun g hgm => hin g (List.mem_cons_of_mem _ hgm)) hOr g hg
          | some e =>
            simp only [] at h
            cases hrec : passGroups sk ir io rest (sources.erase e) p1 r1 with
            | error err =>
              rw [hrec] at h
              simp at h
            | ok pout =>
              rcases pout with ⟨rest', sources', picked'', rand''⟩
              rw [hrec] at h
              injection h with h'
              intro g hg
              rw [← congrArg (fun q => q.1) h'] at hg
              rcases List.mem_cons.mp hg with hg | hg
              · rw [hg]
                exact hg1
              · have hOr' : ir = true ∨ ∀ x ∈ sources.erase e,
                    truthy x.restricted_level = true →
                    ∀ g : Group, sk g = false → g.has_restricted x.restricted_level = false := by
                  rcases hOr with hir | hx
                  · exact Or.inl hir
                  · exact Or.inr (fun x hxm => hx x (List.mem_of_mem_erase hxm))
                exact ih (sources.erase e) p1 r1 (rest', sources', picked'', rand'') hrec
                  (fun g hgm => hin g (List.mem_cons_of_mem _ hgm)) hOr' g hg

end Drawpia

namespace Drawpia

theorem runLevels_noDup_r :
    ∀ (levels : List (String × List Entry)) (gs : List Group) (picked : List Entry)
      (rand : List Nat) (out : List Group × List Entry × List Nat),
      runLevels (fun lvl g => g.is_full || g.has_restricted (some lvl)) false true
        levels gs picked rand = .ok out →
      IndexInv levels →
      (∀ g ∈ gs, noDupRestricted g) →
      ∀ g ∈ out.1, noDupRestricted g := by
  intro levels
  induction levels with
  | nil =>
    intro gs picked rand out h _ hin
    injection h with h'
    intro g hg
    rw [← congrArg (fun q => q.1) h'] at hg
    exact hin g hg
  | cons q rest ih =>
    rcases q with ⟨L, items⟩
    intro gs picked rand out h hInv hin
    simp only [runLevels] at h
    cases hpass : passGroups (fun g => g.is_full || g.has_restricted (some L)) false true gs
        (items.filter (fun e => !(picked.contains e))) picked rand with
    | error err =>
      rw [hpass] at h
      simp at h
    | ok pout =>
      rcases pout with ⟨gs', srcs', picked', rand'⟩
      rw [hpass] at h
      simp only [] at h
      have hgs' : ∀ g ∈ gs', noDupRestricted g := by
        have := passGroups_noDup (fun g => g.is_full || g.has_restricted (some L)) false true
          gs (items.filter (fun e => !(picked.contains e))) picked rand
          (gs', srcs', picked', rand') hpass hin ?_
        · exact this
        · refine Or.inr ?_
          intro x hx ht g hsk
          have hxi : x ∈ items := (List.mem_filter.mp hx).1
          have hxl : x.restricted_level = some L :=
            hInv (L, items) (List.mem_cons_self _ _) x hxi
          rw [hxl]
          exact (Bool.or_eq_false_iff.mp hsk).2
      exact ih gs' picked' rand' out h
        (fun p hp y hy => hInv p (List.mem_cons_of_mem _ hp) y hy) hgs'

theorem runLevels_noDup_ir (skipOf : String → Group → Bool) (io : Bool) :
    ∀ (levels : List (String × List Entry)) (gs : List Group) (picked : List Entry)
      (rand : List Nat) (out : List Group × List Entry × List Nat),
      runLevels skipOf true io levels gs picked rand = .ok out →
      (∀ g ∈ gs, noDupRestricted g) →
      ∀ g ∈ out.1, noDupRestricted g := by
  intro levels
  induction levels with
  | nil =>
    intro gs picked rand out h hin
    injection h with h'
    intro g hg
    rw [← congrArg (fun q => q.1) h'] at hg
    exact hin g hg
  | cons q rest ih =>
    rcases q with ⟨L, items⟩
    intro gs picked rand out h hin
    simp only [runLevels] at h
    cases hpass : passGroups (skipOf L) true io gs
        (items.filter (fun e => !(picked.contains e))) picked rand with
    | error err =>
      rw [hpass] at h
      simp at h
    | ok pout =>
      rcases pout with ⟨gs', srcs', picked', rand'⟩
      rw [hpass] at h
      simp only [] at h
      have hgs' : ∀ g ∈ gs', noDupRestricted g :=
        passGroups_noDup (skipOf L) true io gs
          (items.filter (fun e => !(picked.contains e))) picked rand
          (gs', srcs', picked', rand') hpass hin (Or.inl rfl)
      exact ih gs' picked' rand' out h hgs'

theorem phase3Loop_noDup :
    ∀ (fuel count tried : Nat) (gs : List Group) (sources picked : List Entry)
      (rand : List Nat) (out : DrawOut),
      phase3Loop count fuel tried gs sources picked rand = .ok out →
      (∀ g ∈ gs, noDupRestricted g) →
      ∀ g ∈ out.groups, noDupRestricted g := by
  intro fuel
  induction fuel with
  | zero =>
    intro count tried gs sources picked rand out h hin
    unfold phase3Loop at h
    by_cases hlt : picked.length < count
    · rw [if_pos hlt] at h
      injection h with h'
      intro g hg
      rw [← congrArg DrawOut.groups h'] at hg
      exact hin g hg
    · rw [if_neg hlt] at h
      injection h with h'
      intro g hg
      rw [← congrArg DrawOut.groups h'] at hg
      exact hin g hg
  | succ f ih =>
    intro count tried gs sources picked rand out h hin
    unfold phase3Loop at h
    by_cases hlt : picked.length < count
    · rw [if_pos hlt] at h
      cases hsw : phase3Sweep tried gs sources picked rand with
      | error err =>
        rw [hsw] at h
        simp at h
      | ok sout =>
        rcases sout with ⟨gs', sources', picked', rand'⟩
        rw [hsw] at h
        simp only [] at h
        have hgs' : ∀ g ∈ gs', noDupRestricted g :=
          passGroups_noDup (fun g => g.is_full) true (decide (tried < 10)) gs
            sources picked rand (gs', sources', picked', rand') hsw hin (Or.inl rfl)
        exact ih count (tried + 1) gs' sources' picked' rand' out h hgs'
    · rw [if_neg hlt] at h
      injection h with h'
      intro g hg
      rw [← congrArg DrawOut.groups h'] at hg
      exact hin g hg

/-- C1: for an entry list the feasibility validator accepts, every
reachable state of the draw - after any number of phase-3 sweeps, under
every sequence of random choices, in particular the final groups - has no
group holding two entries with the same truthy restricted level (for
extractor-produced entries a level is never the empty string, so truthy
means non-null). -/
theorem draw_restricted_invariant (entries : List Entry) (s : String) (n tg : Nat)
    (rand : List Nat) (fuel : Nat) (out : DrawOut)
    (hv : validate entries.length (restrictedCount entries) s = .ok (n, tg))
    (hd : draw entries tg n rand fuel = .ok out) :
    ∀ g ∈ out.groups, noDupRestricted g := by
  clear hv
  unfold draw at hd
  simp only [] at hd
  have hin0 : ∀ g ∈ (List.range tg).map
      (fun i => (⟨"Group " ++ toString (i + 1), n, []⟩ : Group)), noDupRestricted g := by
    intro g hg
    obtain ⟨i, -, hgi⟩ := List.mem_map.mp hg
    rw [← hgi]
    exact List.Pairwise.nil
  cases h1 : runLevels (fun lvl g => g.is_full || g.has_restricted (some lvl)) false true
      (restrictedEntries entries)
      ((List.range tg).map (fun i => (⟨"Group " ++ toString (i + 1), n, []⟩ : Group)))
      [] rand with
  | error err =>
    rw [h1] at hd
    simp at hd
  | ok out1 =>
    rcases out1 with ⟨gs1, picked1, rand1⟩
    rw [h1] at hd
    simp only [] at hd
    have hgs1 : ∀ g ∈ gs1, noDupRestricted g := by
      have := runLevels_noDup_r (restrictedEntries entries) _ [] rand
        (gs1, picked1, rand1) h1 (restrictedEntries_inv entries) hin0
      exact this
    cases h2 : runLevels (fun lvl g => g.is_full || g.has_optional (some lvl)) true false
        (optionalEntries entries) gs1 picked1 rand1 with
    | error err =>
      rw [h2] at hd
      simp at hd
    | ok out2 =>
      rcases out2 with ⟨gs2, picked2, rand2⟩
      rw [h2] at hd
      simp only [] at hd
      have hgs2 : ∀ g ∈ gs2, noDupRestricted g :=
        runLevels_noDup_ir _ false (optionalEntries entries) gs1 picked1 rand1
          (gs2, picked2, rand2) h2 hgs1
      exact phase3Loop_noDup fuel entries.length 0 gs2
        (entries.filter (fun e => !(picked2.contains e))) picked2 rand2 out hd hgs2

theorem draw_restricted_invariant_witness :
    noDupRestricted ⟨"Group 1", 1, [⟨"x", 1, none, none⟩]⟩ :=
  draw_restricted_invariant [⟨"x", 1, none, none⟩] "1" 1 1 [0] 2
    ⟨true, [⟨"Group 1", 1, [⟨"x", 1, none, none⟩]⟩], [⟨"x", 1, none, none⟩], []⟩
    (by rfl) (by rfl) ⟨"Group 1", 1, [⟨"x", 1, none, none⟩]⟩ (by simp)

end Drawpia

namespace Drawpia

theorem phase3_frozen (f : Nat) :
    ∀ t : Nat, 10 ≤ t →
      phase3Loop 6 f t
        [⟨"Group 1", 3, [lkA1, lkU1, lkU2]⟩, ⟨"Group 2", 3, [lkA2, lkB1]⟩]
        [lkB2] [lkA1, lkA2, lkB1, lkU1, lkU2] [] = .ok livelockOut := by
  induction f with
  | zero =>
    intro t ht
    rfl
  | succ f ih =>
    intro t ht
    have hio : decide (t < 10) = false := decide_eq_false (by omega)
    have hsweep : phase3Sweep t
        [⟨"Group 1", 3, [lkA1, lkU1, lkU2]⟩, ⟨"Group 2", 3, [lkA2, lkB1]⟩]
        [lkB2] [lkA1, lkA2, lkB1, lkU1, lkU2] []
        = .ok ([⟨"Group 1", 3, [lkA1, lkU1, lkU2]⟩, ⟨"Group 2", 3, [lkA2, lkB1]⟩],
          [lkB2], [lkA1, lkA2, lkB1, lkU1, lkU2], []) := by
      unfold phase3Sweep
      rw [hio]
      rfl
    unfold phase3Loop
    rw [if_pos (show ([lkA1, lkA2, lkB1, lkU1, lkU2] : List Entry).length < 6 by decide)]
    simp only []
    rw [hsweep]
    simp only []
    exact ih (t + 1) (by omega)

/-- C2: the draw does not always terminate.  `livelockEntries` with group
size 3 is accepted by the validator, yet under the realisable random
sequence `livelockRand` the phase-3 loop reaches a state with 5 of the 6
entries placed in which the only non-full group already holds restricted
level "B" while the only unplaced entry carries "B": every further sweep
(any amount of fuel beyond the first 11 sweeps) leaves the state
unchanged and not done, so the Python `while` loop runs forever, no
partition is produced and the groups are never filled. -/
theorem draw_livelock :
    validate 6 (restrictedCount livelockEntries) "3" = .ok (3, 2)
    ∧ ∀ fuel : Nat, draw livelockEntries 2 3 livelockRand (fuel + 11) = .ok livelockOut := by
  constructor
  · rfl
  · intro fuel
    have h1 : draw livelockEntries 2 3 livelockRand (fuel + 11)
        = phase3Loop 6 fuel 11
          [⟨"Group 1", 3, [lkA1, lkU1, lkU2]⟩, ⟨"Group 2", 3, [lkA2, lkB1]⟩]
          [lkB2] [lkA1, lkA2, lkB1, lkU1, lkU2] [] := rfl
    rw [h1]
    exact phase3_frozen fuel 11 (by omega)

end Drawpia
